import Mathlib

/-!
Verification of the `SmartEntity` base class of `@rising3/smart-entity-js`
(`src/index.ts`): schema derivation (`getJsonSchema` / `buildProperties`),
the validating deserializer (`fromJSON`), the recursive masking serializer
(`toJSON` / `processValue`), and the clone facade (`clone`).

Modelling conventions.

* JSON text is modelled at the token level: a serialized document is a
  `List JTok`.  `JSON.stringify(obj, null, 2)` inserts a newline followed by
  `2 * depth` spaces before each member and before the closing bracket of a
  non-empty composite; that newline-plus-indent unit is the single token
  `JTok.nl indent`.  Character-level lexing (string escaping, digit parsing)
  is below the abstraction level of every claim under study; the cosmetic
  single space `JSON.stringify` prints after `:` in pretty mode is likewise
  not represented, since it is neither a newline nor indentation.
* JSON numbers are modelled as `Int`.  Every numeric literal appearing in the
  repository's entities, schemas and tests is an integer, and no claim
  depends on float formatting.
* A live JavaScript value held in an entity field is a `Value`: a primitive,
  an array, a plain object, or a nested `SmartEntity` instance.  A nested
  instance is `Value.ventity mf fs` carrying its own `_maskableFields` list
  `mf` (the only per-instance metadata its serialization reads) and its own
  enumerable fields `fs`.  `undefined` is not modelled: entity fields hold
  JSON-representable values or nested entities.
* The schema validator (Ajv) and the regex engine are external collaborators
  of the repository (spec §1); they are modelled from their documented
  semantics where a claim touches them, see `ajvReportedErrors` and
  `regexTest`.
-/

/-- One token of serialized JSON text.  `nl indent` is a newline followed by
`indent` spaces, the unit `JSON.stringify(obj, null, 2)` emits in pretty
mode before members and closing brackets. -/
inductive JTok where
  | lbrace
  | rbrace
  | lbrack
  | rbrack
  | colon
  | comma
  | nullTok
  | boolTok (b : Bool)
  | numTok (n : Int)
  | strTok (s : String)
  | nl (indent : Nat)
deriving DecidableEq

mutual
/-- A parsed JSON document tree (the values `JSON.parse` can return). -/
inductive Json where
  | null
  | bool (b : Bool)
  | num (n : Int)
  | str (s : String)
  | arr (items : JsonList)
  | obj (fields : JFields)
deriving DecidableEq

/-- The elements of a JSON array, as a mutual list so that every traversal of
a document is plain mutual structural recursion. -/
inductive JsonList where
  | nil
  | cons (v : Json) (rest : JsonList)
deriving DecidableEq

/-- The members of a JSON object, in insertion order. -/
inductive JFields where
  | nil
  | cons (k : String) (v : Json) (rest : JFields)
deriving DecidableEq
end

mutual
/-- A JavaScript runtime value a `SmartEntity` field can hold: a primitive,
an array, a plain object, or a nested entity instance (`ventity`), which
carries its own `_maskableFields` and its own enumerable fields. -/
inductive Value where
  | vnull
  | vbool (b : Bool)
  | vnum (n : Int)
  | vstr (s : String)
  | varr (items : ValueList)
  | vobj (fields : VFields)
  | ventity (maskable : List String) (fields : VFields)
deriving DecidableEq

/-- Elements of a JavaScript array value. -/
inductive ValueList where
  | nil
  | cons (v : Value) (rest : ValueList)
deriving DecidableEq

/-- String-keyed own enumerable properties of a JavaScript object or entity,
in insertion order. -/
inductive VFields where
  | nil
  | cons (k : String) (v : Value) (rest : VFields)
deriving DecidableEq
end

/-- `key.startsWith('_')`: the serializer's filter for implementation-private
fields.  Written over the character list so it evaluates in the kernel. -/
def underscoreFirst (s : String) : Bool :=
  match s.data with
  | [] => false
  | c :: _ => c == '_'

mutual
/-- JavaScript `String(value)` for the values of this model: `null` prints
`"null"`, booleans and integers print their literals, a string is itself, an
array prints as `join(',')`, and a plain object or entity prints
`"[object Object]"`. -/
def jsStringOf : Value → String
  | .vnull => "null"
  | .vbool true => "true"
  | .vbool false => "false"
  | .vnum n => toString n
  | .vstr s => s
  | .varr items => jsStringOfItems items
  | .vobj _ => "[object Object]"
  | .ventity _ _ => "[object Object]"

/-- `Array.prototype.join(',')`: elements comma-separated, with a `null`
element rendered as the empty string. -/
def jsStringOfItems : ValueList → String
  | .nil => ""
  | .cons v .nil => (match v with | .vnull => "" | _ => jsStringOf v)
  | .cons v rest =>
      (match v with | .vnull => "" | _ => jsStringOf v) ++ "," ++ jsStringOfItems rest
end

/-- `'*'.repeat(s.length)`: the mask string for a value whose string form is
`s`. -/
def maskOf (s : String) : String :=
  String.mk (List.replicate s.length '*')

mutual
/-- Token output of `JSON.stringify(j, null, 2)` (when `pretty`) or
`JSON.stringify(j)` (when not), at nesting depth `d`.  An empty composite
prints as `{}` / `[]` with no newline even in pretty mode, exactly as
`JSON.stringify` does. -/
def encJson : Json → Bool → Nat → List JTok
  | .null, _, _ => [.nullTok]
  | .bool b, _, _ => [.boolTok b]
  | .num n, _, _ => [.numTok n]
  | .str s, _, _ => [.strTok s]
  | .arr .nil, _, _ => [.lbrack, .rbrack]
  | .arr (.cons v rest), p, d =>
      .lbrack :: (encItems (.cons v rest) p (d + 1) ++
        (if p then [.nl (2 * d)] else []) ++ [.rbrack])
  | .obj .nil, _, _ => [.lbrace, .rbrace]
  | .obj (.cons k v rest), p, d =>
      .lbrace :: (encFields (.cons k v rest) p (d + 1) ++
        (if p then [.nl (2 * d)] else []) ++ [.rbrace])

/-- Array members: each preceded by a pretty newline-indent, separated by
commas. -/
def encItems : JsonList → Bool → Nat → List JTok
  | .nil, _, _ => []
  | .cons v rest, p, d =>
      (if p then [.nl (2 * d)] else []) ++ encJson v p d ++
        (match rest with | .nil => [] | .cons _ _ => [.comma]) ++ encItems rest p d

/-- Object members: `"key":` then the value, each member preceded by a pretty
newline-indent, separated by commas. -/
def encFields : JFields → Bool → Nat → List JTok
  | .nil, _, _ => []
  | .cons k v rest, p, d =>
      (if p then [.nl (2 * d)] else []) ++ .strTok k :: .colon :: encJson v p d ++
        (match rest with | .nil => [] | .cons _ _ _ => [.comma]) ++ encFields rest p d
end

/-- `JSON.stringify` as the source calls it.  It throws only on values the
tree type cannot represent (circular structures), so on every `Json` it
yields tokens; the `Option` records the exception possibility the source's
`try`/`catch` guards against. -/
def jsonStringifyChecked (j : Json) (pretty : Bool) : Option (List JTok) :=
  some (encJson j pretty 0)

/-- The `catch` arm of `safeJsonStringify`: a thrown encoding (`none`) is
swallowed and the empty string is returned instead. -/
def catchStringify (r : Option (List JTok)) : List JTok :=
  r.getD []

/-- `SmartEntity.safeJsonStringify(obj, pretty)`: `JSON.stringify` in a
`try`, empty output on `catch`. -/
def safeJsonStringify (j : Json) (pretty : Bool) : List JTok :=
  catchStringify (jsonStringifyChecked j pretty)

/-- Skip insignificant whitespace (the pretty-printer's newline-indent
tokens) as `JSON.parse` does between syntactic elements. -/
def skipWs : List JTok → List JTok
  | .nl _ :: ts => skipWs ts
  | ts => ts

/-- Does the token stream start with `]` (the lookahead `JSON.parse` uses to
recognize an empty array)? -/
def headIsRbrack : List JTok → Bool
  | .rbrack :: _ => true
  | _ => false

/-- Does the token stream start with `}` (the lookahead for an empty
object)? -/
def headIsRbrace : List JTok → Bool
  | .rbrace :: _ => true
  | _ => false

mutual
/-- `JSON.parse`, value production: recursive-descent over tokens, fuelled so
that the definition is structural and evaluates in the kernel.  Returns the
parsed value and the unconsumed tokens. -/
def parseVal : Nat → List JTok → Option (Json × List JTok)
  | 0, _ => none
  | fuel + 1, ts =>
    match skipWs ts with
    | .nullTok :: ts1 => some (.null, ts1)
    | .boolTok b :: ts1 => some (.bool b, ts1)
    | .numTok n :: ts1 => some (.num n, ts1)
    | .strTok s :: ts1 => some (.str s, ts1)
    | .lbrack :: ts1 =>
      if headIsRbrack (skipWs ts1) then some (.arr .nil, (skipWs ts1).tail)
      else
        match parseItems fuel ts1 with
        | some (items, rest) => some (.arr items, rest)
        | none => none
    | .lbrace :: ts1 =>
      if headIsRbrace (skipWs ts1) then some (.obj .nil, (skipWs ts1).tail)
      else
        match parseFields fuel ts1 with
        | some (fs, rest) => some (.obj fs, rest)
        | none => none
    | _ => none

/-- `JSON.parse`, members of a non-empty array, up to and including the
closing bracket. -/
def parseItems : Nat → List JTok → Option (JsonList × List JTok)
  | 0, _ => none
  | fuel + 1, ts =>
    match parseVal fuel ts with
    | some (v, rest) =>
      match skipWs rest with
      | .comma :: rest1 =>
        match parseItems fuel rest1 with
        | some (vs, rest2) => some (.cons v vs, rest2)
        | none => none
      | .rbrack :: rest1 => some (.cons v .nil, rest1)
      | _ => none
    | none => none

/-- `JSON.parse`, members of a non-empty object, up to and including the
closing brace. -/
def parseFields : Nat → List JTok → Option (JFields × List JTok)
  | 0, _ => none
  | fuel + 1, ts =>
    match skipWs ts with
    | .strTok k :: ts1 =>
      match skipWs ts1 with
      | .colon :: ts2 =>
        match parseVal fuel ts2 with
        | some (v, rest) =>
          match skipWs rest with
          | .comma :: rest1 =>
            match parseFields fuel rest1 with
            | some (fs, rest2) => some (.cons k v fs, rest2)
            | none => none
          | .rbrace :: rest1 => some (.cons k v .nil, rest1)
          | _ => none
        | none => none
      | _ => none
    | _ => none
end

/-- `JSON.parse(text)`: parse one value and require the remaining tokens to
be whitespace; anything else is a syntax error (`none`). -/
def parseJson (ts : List JTok) : Option Json :=
  match parseVal (ts.length + 1) ts with
  | some (v, rest) =>
    match skipWs rest with
    | [] => some v
    | _ => none
  | none => none

/-- `SmartEntity.safeJsonParse(json)`: `JSON.parse` in a `try`, with a thrown
syntax error caught and turned into `null` (`none`). -/
def safeJsonParse (ts : List JTok) : Option Json :=
  parseJson ts

mutual
/-- `SmartEntity.processValue(value, key, pretty, maskSensitive)` on an
entity whose `_maskableFields` is `mf`.  A nested entity is serialized by its
own `toJSON` (same flags) and the text parsed back (`?? null` on parse
failure); an array maps over elements, masking each by its string form when
the field is maskable; a plain object recurses per sub-field, propagating
`maskSensitive && maskableFields.includes(key)`; a primitive is masked when
the field is maskable, else passed through. -/
def processValue (mf : List String) (key : String) (pretty maskSensitive : Bool) :
    Value → Json
  | .ventity nestedMf nestedFields =>
      (safeJsonParse (safeJsonStringify
        (.obj (serializeFields nestedMf nestedFields pretty maskSensitive)) pretty)).getD .null
  | .varr items => .arr (processItems mf key pretty maskSensitive items)
  | .vobj fields =>
      .obj (processSub mf pretty (maskSensitive && mf.contains key) fields)
  | .vnull =>
      if maskSensitive && mf.contains key then .str (maskOf (jsStringOf .vnull)) else .null
  | .vbool b =>
      if maskSensitive && mf.contains key then .str (maskOf (jsStringOf (.vbool b))) else .bool b
  | .vnum n =>
      if maskSensitive && mf.contains key then .str (maskOf (jsStringOf (.vnum n))) else .num n
  | .vstr s =>
      if maskSensitive && mf.contains key then .str (maskOf (jsStringOf (.vstr s))) else .str s

/-- The `value.map(item => ...)` arm of `processValue` for array values:
when the owning field is maskable each element independently becomes a mask
string of its own string form; otherwise `processValue` recurses per element
under the same key. -/
def processItems (mf : List String) (key : String) (pretty maskSensitive : Bool) :
    ValueList → JsonList
  | .nil => .nil
  | .cons item rest =>
      .cons
        (if maskSensitive && mf.contains key then .str (maskOf (jsStringOf item))
         else processValue mf key pretty maskSensitive item)
        (processItems mf key pretty maskSensitive rest)

/-- The plain-object arm of `processValue`: recurse field-by-field with the
owner's maskable list and the already-combined mask flag `subMask`. -/
def processSub (mf : List String) (pretty subMask : Bool) : VFields → JFields
  | .nil => .nil
  | .cons subKey v rest =>
      .cons subKey (processValue mf subKey pretty subMask v) (processSub mf pretty subMask rest)

/-- The field loop of `SmartEntity.toJSON`: every own property whose name
does not start with `'_'` is processed into the output object, in property
order. -/
def serializeFields (mf : List String) : VFields → Bool → Bool → JFields
  | .nil, _, _ => .nil
  | .cons k v rest, pretty, maskSensitive =>
      if underscoreFirst k then serializeFields mf rest pretty maskSensitive
      else .cons k (processValue mf k pretty maskSensitive v)
        (serializeFields mf rest pretty maskSensitive)
end

mutual
/-- The JSON-Schema objects this library builds and splices: a primitive
schema (`type`, `nullable`, optional length/range/pattern constraints), an
array schema with an item schema, or a closed/open object schema with
`properties`, `required` and `additionalProperties`. -/
inductive JsonSchema where
  | prim (ty : String) (nullable : Bool) (minLength maxLength : Option Nat)
      (minimum maximum : Option Int) (pattern : Option String)
  | arr (items : JsonSchema)
  | obj (properties : SchemaProps) (required : List String) (additionalProperties : Bool)
deriving DecidableEq

/-- The `properties` map of an object schema, in hint order. -/
inductive SchemaProps where
  | nil
  | cons (k : String) (s : JsonSchema) (rest : SchemaProps)
deriving DecidableEq
end

/-- The `items` descriptor of an `ArraySchemaHint`: either an inline
primitive hint or a reference to a precompiled nested schema
(`{ schema: ... }`). -/
inductive HintItems where
  | plain (ty : String) (nullable : Option Bool) (minLength maxLength : Option Nat)
      (minimum maximum : Option Int) (pattern : Option String)
  | withSchema (s : JsonSchema)
deriving DecidableEq

/-- A `SchemaHint` (`BaseSchemaHint` with the optional `items` of
`ArraySchemaHint` and the optional `schema` of `ObjectSchemaHint`; `none`
models an absent / `undefined` member). -/
structure SchemaHint where
  ty : String
  nullable : Option Bool := none
  minLength : Option Nat := none
  maxLength : Option Nat := none
  minimum : Option Int := none
  maximum : Option Int := none
  pattern : Option String := none
  items : Option HintItems := none
  schema : Option JsonSchema := none
deriving DecidableEq

/-- The `else` arm of `buildProperties`: a primitive property copying the
hint's `type`, `nullable ?? false` and constraint members. -/
def primFromHint (h : SchemaHint) : JsonSchema :=
  .prim h.ty (h.nullable.getD false) h.minLength h.maxLength h.minimum h.maximum h.pattern

/-- One property of `SmartEntity.buildProperties`: an array hint with an
`items` descriptor becomes an array property (nested precompiled schema, or
a fresh primitive item sub-schema copying the descriptor); an object hint
with a precompiled `schema` is spliced verbatim; anything else becomes a
primitive property. -/
def hintProperty (h : SchemaHint) : JsonSchema :=
  if h.ty = "array" then
    match h.items with
    | some (.plain t nb minL maxL minI maxI pat) =>
        .arr (.prim t (nb.getD false) minL maxL minI maxI pat)
    | some (.withSchema s) => .arr s
    | none => primFromHint h
  else if h.ty = "object" then
    match h.schema with
    | some s => s
    | none => primFromHint h
  else primFromHint h

/-- `SmartEntity.buildProperties(schemaHints)`: one property per hint key,
in key order. -/
def buildProperties : List (String × SchemaHint) → SchemaProps
  | [] => .nil
  | (k, h) :: rest => .cons k (hintProperty h) (buildProperties rest)

/-- The per-class declarations of a concrete `SmartEntity` subclass: its
`_maskableFields`, `_requiredFields` and `_schemaHints`, plus the own fields
(with their values) a `new (this)()` default instance carries, in property
order. -/
structure EntityType where
  maskableFields : List String
  requiredFields : List String
  schemaHints : List (String × SchemaHint)
  defaultFields : VFields
deriving DecidableEq

/-- A live instance of a concrete subclass: its class declarations and its
own enumerable fields in property order. -/
structure EntityInst where
  etype : EntityType
  fields : VFields
deriving DecidableEq

/-- `SmartEntity.getJsonSchema()`: an object schema assembling
`buildProperties` over the hints, `required` set to the declared required
fields, and `additionalProperties: false`. -/
def getJsonSchema (et : EntityType) : JsonSchema :=
  .obj (buildProperties et.schemaHints) et.requiredFields false

/-- `instance.toJSON(pretty, maskSensitive)`: process every own
non-underscore field, then `safeJsonStringify` the resulting object. -/
def toJSON (e : EntityInst) (pretty maskSensitive : Bool) : List JTok :=
  safeJsonStringify
    (.obj (serializeFields e.etype.maskableFields e.fields pretty maskSensitive)) pretty

/-- One structured failure reported by the schema validator: the instance
path of the offending location and the rule message. -/
structure AjvError where
  instancePath : String
  message : String
deriving DecidableEq

/-- Does `prefixChars` occur at the head of `chars`? -/
def charsHavePrefix : List Char → List Char → Bool
  | [], _ => true
  | _ :: _, [] => false
  | c :: cs, d :: ds => c == d && charsHavePrefix cs ds

/-- Does `s` contain `sub` as a contiguous substring? -/
def strContains (s sub : String) : Bool :=
  go s.data sub.data
where
  go : List Char → List Char → Bool
    | cs, sub' =>
      charsHavePrefix sub' cs ||
        match cs with
        | [] => false
        | _ :: rest => go rest sub'

/-- The external regex engine behind the `pattern` keyword, modelled on the
fragment the repository can exercise: for a literal, metacharacter-free
pattern `p`, `new RegExp(p).test(s)` is unanchored substring search.  No
claim under study constrains `pattern`; this definition only has to exist so
`validateSchema` is total. -/
def regexTest (pat s : String) : Bool :=
  strContains s pat

/-- The JSON-Schema `type` keyword test.  Model numbers are integers, so
they satisfy both `"number"` and `"integer"`.  An unknown type name matches
nothing (Ajv would refuse to compile such a schema). -/
def typeOk (ty : String) : Json → Bool
  | .null => ty == "null"
  | .bool _ => ty == "boolean"
  | .num _ => ty == "number" || ty == "integer"
  | .str _ => ty == "string"
  | .arr _ => ty == "array"
  | .obj _ => ty == "object"

/-- Validation of a primitive property schema at `path`: `nullable: true`
admits `null`; otherwise the type keyword is checked, then the string
length/pattern and numeric range constraints that are present. -/
def validatePrim (ty : String) (nullable : Bool) (minL maxL : Option Nat)
    (minI maxI : Option Int) (pat : Option String) (path : String) (d : Json) :
    List AjvError :=
  match d with
  | .null => if nullable then [] else [⟨path, "must be " ++ ty⟩]
  | _ =>
    if typeOk ty d then
      (match d, minL with
       | .str s, some n =>
         if s.length < n then
           [⟨path, "must NOT have fewer than " ++ toString n ++ " characters"⟩]
         else []
       | _, _ => []) ++
      (match d, maxL with
       | .str s, some n =>
         if n < s.length then
           [⟨path, "must NOT have more than " ++ toString n ++ " characters"⟩]
         else []
       | _, _ => []) ++
      (match d, pat with
       | .str s, some p =>
         if regexTest p s then [] else [⟨path, "must match pattern " ++ p⟩]
       | _, _ => []) ++
      (match d, minI with
       | .num n, some m => if n < m then [⟨path, "must be >= " ++ toString m⟩] else []
       | _, _ => []) ++
      (match d, maxI with
       | .num n, some m => if m < n then [⟨path, "must be <= " ++ toString m⟩] else []
       | _, _ => [])
    else [⟨path, "must be " ++ ty⟩]

/-- The keys of an object's members, in order. -/
def JFields.keys : JFields → List String
  | .nil => []
  | .cons k _ rest => k :: JFields.keys rest

/-- Does the object have a member named `k`? -/
def JFields.hasKey (fs : JFields) (k : String) : Bool :=
  (JFields.keys fs).contains k

/-- First member named `k`, if any. -/
def JFields.get : JFields → String → Option Json
  | .nil, _ => none
  | .cons k v rest, k' => if k == k' then some v else JFields.get rest k'

/-- The declared property names of an object schema, in order. -/
def propKeys : SchemaProps → List String
  | .nil => []
  | .cons k _ rest => k :: propKeys rest

/-- The `required` keyword: one failure (at the object's own path) per
declared-required member the data lacks, in `required` order. -/
def requiredErrors (req : List String) (path : String) (fields : JFields) :
    List AjvError :=
  req.flatMap fun r =>
    if fields.hasKey r then []
    else [⟨path, "must have required property " ++ r⟩]

/-- The `additionalProperties: false` keyword: one failure per data member
not among the declared properties, in data order. -/
def additionalErrors (addl : Bool) (declared : List String) (path : String)
    (fields : JFields) : List AjvError :=
  if addl then []
  else
    (JFields.keys fields).flatMap fun k =>
      if declared.contains k then []
      else [⟨path, "must NOT have additional properties"⟩]

/-- The elements of a JSON array as a plain list. -/
def JsonList.toListJ : JsonList → List Json
  | .nil => []
  | .cons v rest => v :: JsonList.toListJ rest

mutual
/-- The external schema validator applied to `d` at instance path `path`:
the full, ordered list of failures of `d` against `s`.  For an object
schema, missing-required failures are generated first, then
additional-property failures, then failures within the declared properties
present in the data, matching the validator's keyword order. -/
def validateSchema (s : JsonSchema) (path : String) (d : Json) : List AjvError :=
  match s with
  | .prim ty nb minL maxL minI maxI pat => validatePrim ty nb minL maxL minI maxI pat path d
  | .arr itemSchema =>
    match d with
    | .arr items =>
      (items.toListJ.enum.flatMap fun vi =>
        validateSchema itemSchema (path ++ "/" ++ toString vi.1) vi.2)
    | _ => [⟨path, "must be array"⟩]
  | .obj props req addl =>
    match d with
    | .obj fields =>
      requiredErrors req path fields ++
        additionalErrors addl (propKeys props) path fields ++
        validateProps props path fields
    | _ => [⟨path, "must be object"⟩]

/-- Failures within the declared properties: for each declared property
present in the data, validate its value at the extended path. -/
def validateProps : SchemaProps → String → JFields → List AjvError
  | .nil, _, _ => []
  | .cons k sub rest, path, fields =>
    (match fields.get k with
     | some v => validateSchema sub (path ++ "/" ++ k) v
     | none => []) ++ validateProps rest path fields
end

/-- The source constructs its validator as `new Ajv()`.  Ajv's documented
default is `allErrors: false`: validation stops at, and `validate.errors`
carries, only the first failure. -/
def ajvAllErrorsDefault : Bool := false

/-- `validate.errors` after `validate(data)` returns `false`: all failures
when `allErrors` is set, otherwise just the first. -/
def ajvReportedErrors (s : JsonSchema) (d : Json) : List AjvError :=
  if ajvAllErrorsDefault then validateSchema s "" d
  else (validateSchema s "" d).take 1

/-- JavaScript truthiness of a parsed JSON value: `null`, `false`, `0` and
`""` are falsy; every array and object is truthy. -/
def jsFalsy : Json → Bool
  | .null => true
  | .bool b => !b
  | .num n => n == 0
  | .str s => s == ""
  | .arr _ => false
  | .obj _ => false

mutual
/-- Embed a parsed JSON tree into the value universe (what a parsed field
holds after `Object.assign`): never an entity. -/
def jsonToValue : Json → Value
  | .null => .vnull
  | .bool b => .vbool b
  | .num n => .vnum n
  | .str s => .vstr s
  | .arr items => .varr (jsonToValueL items)
  | .obj fields => .vobj (jsonToValueF fields)

/-- Embed the elements of a parsed array. -/
def jsonToValueL : JsonList → ValueList
  | .nil => .nil
  | .cons v rest => .cons (jsonToValue v) (jsonToValueL rest)

/-- Embed the members of a parsed object. -/
def jsonToValueF : JFields → VFields
  | .nil => .nil
  | .cons k v rest => .cons k (jsonToValue v) (jsonToValueF rest)
end

/-- The keys of an instance's fields, in property order. -/
def VFields.keys : VFields → List String
  | .nil => []
  | .cons k _ rest => k :: VFields.keys rest

/-- One property write of `Object.assign(instance, data)`: an existing
property keeps its position and takes the new value; a new property is
appended at the end. -/
def assignOne : VFields → String → Value → VFields
  | .nil, k, v => .cons k v .nil
  | .cons k' v' rest, k, v =>
      if k' == k then .cons k' v rest else .cons k' v' (assignOne rest k v)

/-- `Object.assign(instance, data)` over the parsed object's members, in
data order. -/
def assignAll : VFields → JFields → VFields
  | target, .nil => target
  | target, .cons k v rest => assignAll (assignOne target k (jsonToValue v)) rest

/-- The errors `SmartEntity.fromJSON` can throw: `Invalid JSON data: ...`
(carrying the offending input) before any schema work, or
`Validation failed: ...` carrying the aggregated message. -/
inductive EntityError where
  | parseFailure (input : List JTok)
  | validationFailure (msg : String)
deriving DecidableEq

/-- `SmartEntity.fromJSON(json)`: `safeJsonParse`, then the `!data` falsiness
gate (throwing the parse error), then compile-and-run the validator against
the derived schema, throwing `Validation failed:` with
`errors.map(err => instancePath + " " + err.message).join(', ')` on failure;
on success construct a default instance and `Object.assign` the parsed data
onto it.  (Validation guarantees the data is an object; `Object.assign` from
a non-object primitive copies no string-keyed properties, which the
fall-through arm mirrors.) -/
def fromJSON (et : EntityType) (json : List JTok) : Except EntityError EntityInst :=
  match safeJsonParse json with
  | none => .error (.parseFailure json)
  | some data =>
    if jsFalsy data then .error (.parseFailure json)
    else
      let errs := ajvReportedErrors (getJsonSchema et) data
      if errs.isEmpty then
        .ok ⟨et,
          match data with
          | .obj kvs => assignAll et.defaultFields kvs
          | _ => et.defaultFields⟩
      else
        .error (.validationFailure (String.intercalate ", "
          (errs.map fun er => er.instancePath ++ " " ++ er.message)))

/-- `instance.clone()`: serialize with the `toJSON` defaults
(`pretty=false`, `maskSensitive=false`) and deserialize on the same concrete
type. -/
def clone (e : EntityInst) : Except EntityError EntityInst :=
  fromJSON e.etype (toJSON e false false)

/-- `instance.validate()`: clone for its validation side effect and discard
the result. -/
def validate (e : EntityInst) : Except EntityError Unit :=
  (clone e).map fun _ => Unit.unit

/-! ### Printer / parser round trip -/

/-- Is a token a whitespace (newline-indent) token? -/
def isNl : JTok → Bool
  | .nl _ => true
  | _ => false

/-- The first token `encJson` emits for a value. -/
def headTok : Json → JTok
  | .null => .nullTok
  | .bool b => .boolTok b
  | .num n => .numTok n
  | .str s => .strTok s
  | .arr _ => .lbrack
  | .obj _ => .lbrace

theorem skipWs_cons_not_nl (t : JTok) (ts : List JTok) (h : isNl t = false) :
    skipWs (t :: ts) = t :: ts := by
  cases t <;> simp [isNl] at h ⊢ <;> rfl

theorem skipWs_wsOpt (p : Bool) (k : Nat) (ts : List JTok) :
    skipWs ((if p then [JTok.nl k] else []) ++ ts) = skipWs ts := by
  cases p <;> rfl

theorem isNl_headTok (j : Json) : isNl (headTok j) = false := by
  cases j <;> rfl

theorem headTok_ne_rbrack (j : Json) : headTok j ≠ .rbrack := by
  cases j <;> simp [headTok]

theorem headTok_ne_rbrace (j : Json) : headTok j ≠ .rbrace := by
  cases j <;> simp [headTok]

theorem encJson_cons (j : Json) (p : Bool) (d : Nat) :
    ∃ tl, encJson j p d = headTok j :: tl := by
  cases j with
  | null => exact ⟨_, rfl⟩
  | bool b => exact ⟨_, rfl⟩
  | num n => exact ⟨_, rfl⟩
  | str s => exact ⟨_, rfl⟩
  | arr items => cases items <;> exact ⟨_, rfl⟩
  | obj fields => cases fields <;> exact ⟨_, rfl⟩

theorem skipWs_enc_append (j : Json) (p : Bool) (d : Nat) (x : List JTok) :
    skipWs (encJson j p d ++ x) = encJson j p d ++ x := by
  obtain ⟨tl, htl⟩ := encJson_cons j p d
  rw [htl]
  exact skipWs_cons_not_nl _ _ (isNl_headTok j)

theorem parseVal_wsOpt (fuel : Nat) (p : Bool) (k : Nat) (ts : List JTok) :
    parseVal fuel ((if p then [JTok.nl k] else []) ++ ts) = parseVal fuel ts := by
  cases p <;> cases fuel <;> rfl

mutual
/-- Fuel sufficient for `parseVal` to consume this value. -/
def needVal : Json → Nat
  | .null => 1
  | .bool _ => 1
  | .num _ => 1
  | .str _ => 1
  | .arr .nil => 1
  | .arr (.cons v rest) => 1 + needItems (.cons v rest)
  | .obj .nil => 1
  | .obj (.cons k v rest) => 1 + needFields (.cons k v rest)

/-- Fuel sufficient for `parseItems` to consume these members. -/
def needItems : JsonList → Nat
  | .nil => 0
  | .cons v rest => 1 + needVal v + needItems rest

/-- Fuel sufficient for `parseFields` to consume these members. -/
def needFields : JFields → Nat
  | .nil => 0
  | .cons _ v rest => 1 + needVal v + needFields rest
end

theorem needVal_pos : ∀ j : Json, 1 ≤ needVal j
  | .null => le_refl 1
  | .bool _ => le_refl 1
  | .num _ => le_refl 1
  | .str _ => le_refl 1
  | .arr .nil => le_refl 1
  | .arr (.cons _ _) => by simp [needVal]
  | .obj .nil => le_refl 1
  | .obj (.cons _ _ _) => by simp [needVal]


theorem headIsRbrack_headTok (j : Json) (w : List JTok) :
    headIsRbrack (headTok j :: w) = false := by
  cases j <;> rfl

theorem headIsRbrace_headTok (j : Json) (w : List JTok) :
    headIsRbrace (headTok j :: w) = false := by
  cases j <;> rfl

theorem encItems_cons_decomp (v : Json) (vrest : JsonList) (p : Bool) (d : Nat) :
    ∃ y, encItems (.cons v vrest) p d =
      (if p then [JTok.nl (2 * d)] else []) ++ encJson v p d ++ y := by
  cases vrest with
  | nil => exact ⟨[], by simp [encItems]⟩
  | cons w wrest =>
      exact ⟨JTok.comma :: encItems (.cons w wrest) p d, by simp [encItems]⟩

theorem encFields_cons_decomp (k : String) (v : Json) (frest : JFields) (p : Bool) (d : Nat) :
    ∃ y, encFields (.cons k v frest) p d =
      (if p then [JTok.nl (2 * d)] else []) ++
        JTok.strTok k :: JTok.colon :: (encJson v p d ++ y) := by
  cases frest with
  | nil => exact ⟨[], by simp [encFields]⟩
  | cons k2 w wrest =>
      exact ⟨JTok.comma :: encFields (.cons k2 w wrest) p d, by simp [encFields]⟩

theorem skipWs_encItems_cons (v : Json) (vrest : JsonList) (p : Bool) (d : Nat)
    (x : List JTok) :
    ∃ w, skipWs (encItems (.cons v vrest) p d ++ x) = headTok v :: w := by
  obtain ⟨y, hy⟩ := encItems_cons_decomp v vrest p d
  obtain ⟨tl, htl⟩ := encJson_cons v p d
  refine ⟨tl ++ (y ++ x), ?_⟩
  rw [hy]
  simp only [List.append_assoc]
  rw [skipWs_wsOpt, skipWs_enc_append, htl]
  simp

theorem skipWs_encFields_cons (k : String) (v : Json) (frest : JFields) (p : Bool) (d : Nat)
    (x : List JTok) :
    ∃ w, skipWs (encFields (.cons k v frest) p d ++ x) = JTok.strTok k :: w := by
  obtain ⟨y, hy⟩ := encFields_cons_decomp k v frest p d
  refine ⟨JTok.colon :: (encJson v p d ++ y) ++ x, ?_⟩
  rw [hy]
  simp only [List.append_assoc, List.cons_append]
  rw [skipWs_wsOpt]
  exact skipWs_cons_not_nl (JTok.strTok k) _ rfl

theorem parseVal_step_lbrack (fuel : Nat) (ts1 : List JTok) :
    parseVal (fuel + 1) (JTok.lbrack :: ts1) =
      if headIsRbrack (skipWs ts1) then some (.arr .nil, (skipWs ts1).tail)
      else
        match parseItems fuel ts1 with
        | some (items, rest) => some (.arr items, rest)
        | none => none := rfl

theorem parseVal_step_lbrace (fuel : Nat) (ts1 : List JTok) :
    parseVal (fuel + 1) (JTok.lbrace :: ts1) =
      if headIsRbrace (skipWs ts1) then some (.obj .nil, (skipWs ts1).tail)
      else
        match parseFields fuel ts1 with
        | some (fs, rest) => some (.obj fs, rest)
        | none => none := rfl

theorem parseItems_cons_of (fuel : Nat) (ts : List JTok) (v : Json) (r : List JTok)
    (hv : parseVal fuel ts = some (v, r)) :
    parseItems (fuel + 1) ts =
      match skipWs r with
      | .comma :: r1 =>
        match parseItems fuel r1 with
        | some (vs, r2) => some (JsonList.cons v vs, r2)
        | none => none
      | .rbrack :: r1 => some (JsonList.cons v .nil, r1)
      | _ => none := by
  simp only [parseItems, hv]

theorem parseFields_cons_of (fuel : Nat) (ts ts2 : List JTok) (k : String) (v : Json)
    (r : List JTok) (hts : skipWs ts = JTok.strTok k :: JTok.colon :: ts2)
    (hv : parseVal fuel ts2 = some (v, r)) :
    parseFields (fuel + 1) ts =
      match skipWs r with
      | .comma :: r1 =>
        match parseFields fuel r1 with
        | some (gs, r2) => some (JFields.cons k v gs, r2)
        | none => none
      | .rbrace :: r1 => some (JFields.cons k v .nil, r1)
      | _ => none := by
  have hsk : skipWs (JTok.colon :: ts2) = JTok.colon :: ts2 :=
    skipWs_cons_not_nl JTok.colon ts2 rfl
  simp only [parseFields]
  rw [hts]
  simp only [hsk, hv]

mutual
/-- What the printer emits for a value, the parser reads back as that value,
leaving the following tokens untouched, given sufficient fuel. -/
theorem parseVal_encJson : ∀ (j : Json) (p : Bool) (d : Nat) (rest : List JTok)
    (fuel : Nat), needVal j ≤ fuel →
    parseVal fuel (encJson j p d ++ rest) = some (j, rest)
  | j, _, _, _, 0, h => absurd (le_trans (needVal_pos j) h) (by omega)
  | .null, _, _, _, _ + 1, _ => rfl
  | .bool _, _, _, _, _ + 1, _ => rfl
  | .num _, _, _, _, _ + 1, _ => rfl
  | .str _, _, _, _, _ + 1, _ => rfl
  | .arr .nil, _, _, _, _ + 1, _ => rfl
  | .obj .nil, _, _, _, _ + 1, _ => rfl
  | .arr (.cons v vrest), p, d, rest, fuel + 1, h => by
      have hfuel : needItems (.cons v vrest) ≤ fuel := by
        simp [needVal] at h; omega
      have htail : skipWs ((if p then [JTok.nl (2 * d)] else []) ++ JTok.rbrack :: rest) =
          JTok.rbrack :: rest := by
        rw [skipWs_wsOpt]
        exact skipWs_cons_not_nl JTok.rbrack rest rfl
      have hitems := parseItems_encItems (.cons v vrest) p (d + 1) fuel
        ((if p then [JTok.nl (2 * d)] else []) ++ JTok.rbrack :: rest) rest
        (fun hc => JsonList.noConfusion hc) hfuel htail
      obtain ⟨w, hw⟩ := skipWs_encItems_cons v vrest p (d + 1)
        ((if p then [JTok.nl (2 * d)] else []) ++ JTok.rbrack :: rest)
      have henc : encJson (.arr (.cons v vrest)) p d ++ rest =
          JTok.lbrack :: (encItems (.cons v vrest) p (d + 1) ++
            ((if p then [JTok.nl (2 * d)] else []) ++ JTok.rbrack :: rest)) := by
        simp [encJson]
      rw [henc, parseVal_step_lbrack, hw, headIsRbrack_headTok, hitems]
      rfl

  | .obj (.cons k v frest), p, d, rest, fuel + 1, h => by
      have hfuel : needFields (.cons k v frest) ≤ fuel := by
        simp [needVal] at h; omega
      have htail : skipWs ((if p then [JTok.nl (2 * d)] else []) ++ JTok.rbrace :: rest) =
          JTok.rbrace :: rest := by
        rw [skipWs_wsOpt]
        exact skipWs_cons_not_nl JTok.rbrace rest rfl
      have hfields := parseFields_encFields (.cons k v frest) p (d + 1) fuel
        ((if p then [JTok.nl (2 * d)] else []) ++ JTok.rbrace :: rest) rest
        (fun hc => JFields.noConfusion hc) hfuel htail
      obtain ⟨w, hw⟩ := skipWs_encFields_cons k v frest p (d + 1)
        ((if p then [JTok.nl (2 * d)] else []) ++ JTok.rbrace :: rest)
      have henc : encJson (.obj (.cons k v frest)) p d ++ rest =
          JTok.lbrace :: (encFields (.cons k v frest) p (d + 1) ++
            ((if p then [JTok.nl (2 * d)] else []) ++ JTok.rbrace :: rest)) := by
        simp [encJson]
      rw [henc, parseVal_step_lbrace, hw]
      have hbr : headIsRbrace (JTok.strTok k :: w) = false := rfl
      rw [hbr, hfields]
      rfl

/-- What the printer emits for the members of a non-empty array, followed by
a whitespace-then-bracket tail, the member parser reads back as those
members. -/
theorem parseItems_encItems : ∀ (items : JsonList) (p : Bool) (d : Nat)
    (fuel : Nat) (tail rest : List JTok), items ≠ .nil → needItems items ≤ fuel →
    skipWs tail = JTok.rbrack :: rest →
    parseItems fuel (encItems items p d ++ tail) = some (items, rest)
  | .nil, _, _, _, _, _, hne, _, _ => absurd rfl hne
  | .cons _ _, _, _, 0, _, _, _, hf, _ => by simp [needItems] at hf
  | .cons v .nil, p, d, fuel + 1, tail, rest, _, hf, htail => by
      have hv : needVal v ≤ fuel := by simp [needItems] at hf; omega
      have hts : encItems (.cons v .nil) p d ++ tail =
          (if p then [JTok.nl (2 * d)] else []) ++ (encJson v p d ++ tail) := by
        simp [encItems]
      have hpv : parseVal fuel (encItems (.cons v .nil) p d ++ tail) = some (v, tail) := by
        rw [hts, parseVal_wsOpt, parseVal_encJson v p d tail fuel hv]
      rw [parseItems_cons_of fuel _ v tail hpv, htail]
  | .cons v (.cons w wrest), p, d, fuel + 1, tail, rest, _, hf, htail => by
      have hv : needVal v ≤ fuel := by simp [needItems] at hf; omega
      have hrest : needItems (.cons w wrest) ≤ fuel := by
        simp [needItems] at hf ⊢; omega
      have hi := parseItems_encItems (.cons w wrest) p d fuel tail rest
        (fun hc => JsonList.noConfusion hc) hrest htail
      have hts : encItems (.cons v (.cons w wrest)) p d ++ tail =
          (if p then [JTok.nl (2 * d)] else []) ++ (encJson v p d ++
            (JTok.comma :: (encItems (.cons w wrest) p d ++ tail))) := by
        simp [encItems]
      have hpv : parseVal fuel (encItems (.cons v (.cons w wrest)) p d ++ tail) =
          some (v, JTok.comma :: (encItems (.cons w wrest) p d ++ tail)) := by
        rw [hts, parseVal_wsOpt, parseVal_encJson v p d _ fuel hv]
      rw [parseItems_cons_of fuel _ v _ hpv,
        skipWs_cons_not_nl JTok.comma _ rfl]
      simp only [hi]

/-- What the printer emits for the members of a non-empty object, followed by
a whitespace-then-brace tail, the member parser reads back as those
members. -/
theorem parseFields_encFields : ∀ (fs : JFields) (p : Bool) (d : Nat)
    (fuel : Nat) (tail rest : List JTok), fs ≠ .nil → needFields fs ≤ fuel →
    skipWs tail = JTok.rbrace :: rest →
    parseFields fuel (encFields fs p d ++ tail) = some (fs, rest)
  | .nil, _, _, _, _, _, hne, _, _ => absurd rfl hne
  | .cons _ _ _, _, _, 0, _, _, _, hf, _ => by simp [needFields] at hf
  | .cons k v .nil, p, d, fuel + 1, tail, rest, _, hf, htail => by
      have hv : needVal v ≤ fuel := by simp [needFields] at hf; omega
      have hts : encFields (.cons k v .nil) p d ++ tail =
          (if p then [JTok.nl (2 * d)] else []) ++
            JTok.strTok k :: JTok.colon :: (encJson v p d ++ tail) := by
        simp [encFields]
      have hskip : skipWs (encFields (.cons k v .nil) p d ++ tail) =
          JTok.strTok k :: JTok.colon :: (encJson v p d ++ tail) := by
        rw [hts, skipWs_wsOpt]
        exact skipWs_cons_not_nl (JTok.strTok k) _ rfl
      rw [parseFields_cons_of fuel _ _ k v tail hskip
        (parseVal_encJson v p d tail fuel hv), htail]
  | .cons k v (.cons k2 w wrest), p, d, fuel + 1, tail, rest, _, hf, htail => by
      have hv : needVal v ≤ fuel := by simp [needFields] at hf; omega
      have hrest : needFields (.cons k2 w wrest) ≤ fuel := by
        simp [needFields] at hf ⊢; omega
      have hi := parseFields_encFields (.cons k2 w wrest) p d fuel tail rest
        (fun hc => JFields.noConfusion hc) hrest htail
      have hts : encFields (.cons k v (.cons k2 w wrest)) p d ++ tail =
          (if p then [JTok.nl (2 * d)] else []) ++
            JTok.strTok k :: JTok.colon :: (encJson v p d ++
              (JTok.comma :: (encFields (.cons k2 w wrest) p d ++ tail))) := by
        simp [encFields]
      have hskip : skipWs (encFields (.cons k v (.cons k2 w wrest)) p d ++ tail) =
          JTok.strTok k :: JTok.colon :: (encJson v p d ++
            (JTok.comma :: (encFields (.cons k2 w wrest) p d ++ tail))) := by
        rw [hts, skipWs_wsOpt]
        exact skipWs_cons_not_nl (JTok.strTok k) _ rfl
      rw [parseFields_cons_of fuel _ _ k v _ hskip
        (parseVal_encJson v p d _ fuel hv),
        skipWs_cons_not_nl JTok.comma _ rfl]
      simp only [hi]
end

mutual
/-- The fuel a value needs is at most the number of tokens printed for it. -/
theorem needVal_le_encLen : ∀ (j : Json) (p : Bool) (d : Nat),
    needVal j ≤ (encJson j p d).length
  | .null, _, _ => by simp [needVal, encJson]
  | .bool _, _, _ => by simp [needVal, encJson]
  | .num _, _, _ => by simp [needVal, encJson]
  | .str _, _, _ => by simp [needVal, encJson]
  | .arr .nil, _, _ => by simp [needVal, encJson]
  | .arr (.cons v vrest), p, d => by
      have h := needItems_le_encLen (.cons v vrest) p (d + 1)
      cases p <;> simp [needVal, encJson] <;> omega
  | .obj .nil, _, _ => by simp [needVal, encJson]
  | .obj (.cons k v frest), p, d => by
      have h := needFields_le_encLen (.cons k v frest) p (d + 1)
      cases p <;> simp [needVal, encJson] <;> omega

/-- The fuel array members need is at most one more than their token
count. -/
theorem needItems_le_encLen : ∀ (l : JsonList) (p : Bool) (d : Nat),
    needItems l ≤ (encItems l p d).length + 1
  | .nil, _, _ => by simp [needItems]
  | .cons v vrest, p, d => by
      have h1 := needVal_le_encLen v p d
      have h2 := needItems_le_encLen vrest p d
      cases vrest <;> cases p <;> simp [needItems, encItems] at h2 ⊢ <;> omega

/-- The fuel object members need is at most one more than their token
count. -/
theorem needFields_le_encLen : ∀ (l : JFields) (p : Bool) (d : Nat),
    needFields l ≤ (encFields l p d).length + 1
  | .nil, _, _ => by simp [needFields]
  | .cons k v frest, p, d => by
      have h1 := needVal_le_encLen v p d
      have h2 := needFields_le_encLen frest p d
      cases frest <;> cases p <;> simp [needFields, encFields] at h2 ⊢ <;> omega
end

/-- `JSON.parse` reads `JSON.stringify` output, pretty or compact, back to
the same tree. -/
theorem parseJson_encJson (j : Json) (p : Bool) : parseJson (encJson j p 0) = some j := by
  have hlen : needVal j ≤ (encJson j p 0).length + 1 :=
    le_trans (needVal_le_encLen j p 0) (by omega)
  have h := parseVal_encJson j p 0 [] ((encJson j p 0).length + 1) hlen
  rw [List.append_nil] at h
  simp only [parseJson, h]
  rfl

/-- The source's safe parse inverts its safe stringify. -/
theorem safeJsonParse_stringify (j : Json) (p : Bool) :
    safeJsonParse (safeJsonStringify j p) = some j :=
  parseJson_encJson j p

/-! ### The serializer on parsed (entity-free) values -/

mutual
/-- With masking off, `processValue` maps a parsed JSON value back to
itself. -/
theorem processValue_jsonToValue : ∀ (j : Json) (mf : List String) (key : String)
    (p : Bool), processValue mf key p false (jsonToValue j) = j
  | .null, _, _, _ => rfl
  | .bool _, _, _, _ => rfl
  | .num _, _, _, _ => rfl
  | .str _, _, _, _ => rfl
  | .arr items, mf, key, p => by
      simp only [jsonToValue, processValue]
      rw [processItems_jsonToValue items mf key p]
  | .obj fields, mf, key, p => by
      simp only [jsonToValue, processValue, Bool.false_and]
      rw [processSub_jsonToValue fields mf p]

/-- With masking off, `processValue` maps parsed array elements back to
themselves. -/
theorem processItems_jsonToValue : ∀ (l : JsonList) (mf : List String) (key : String)
    (p : Bool), processItems mf key p false (jsonToValueL l) = l
  | .nil, _, _, _ => rfl
  | .cons v rest, mf, key, p => by
      simp only [jsonToValueL, processItems, Bool.false_and, Bool.false_eq_true, if_false]
      rw [processValue_jsonToValue v mf key p, processItems_jsonToValue rest mf key p]

/-- With the propagated mask flag off, the plain-object recursion maps parsed
members back to themselves. -/
theorem processSub_jsonToValue : ∀ (l : JFields) (mf : List String) (p : Bool),
    processSub mf p false (jsonToValueF l) = l
  | .nil, _, _ => rfl
  | .cons k v rest, mf, p => by
      simp only [jsonToValueF, processSub]
      rw [processValue_jsonToValue v mf k p, processSub_jsonToValue rest mf p]
end

/-- A nested entity field is serialized by recursively serializing the nested
entity itself — its own `toJSON` with the same flags, parsed back and spliced
in. -/
theorem processValue_entityValue (mf : List String) (key : String) (p m : Bool)
    (mf2 : List String) (fs2 : VFields) :
    processValue mf key p m (.ventity mf2 fs2) =
      .obj (serializeFields mf2 fs2 p m) := by
  simp only [processValue]
  rw [safeJsonParse_stringify]
  rfl

mutual
/-- The serialized tree does not depend on the `pretty` flag (pretty-printing
only affects the final text encoding, even through nested entities). -/
theorem processValue_pretty : ∀ (v : Value) (mf : List String) (key : String)
    (m p q : Bool), processValue mf key p m v = processValue mf key q m v
  | .vnull, _, _, _, _, _ => rfl
  | .vbool _, _, _, _, _, _ => rfl
  | .vnum _, _, _, _, _, _ => rfl
  | .vstr _, _, _, _, _, _ => rfl
  | .varr items, mf, key, m, p, q => by
      simp only [processValue]
      rw [processItems_pretty items mf key m p q]
  | .vobj fields, mf, key, m, p, q => by
      simp only [processValue]
      rw [processSub_pretty fields mf (m && mf.contains key) p q]
  | .ventity mf2 fs2, mf, key, m, p, q => by
      rw [processValue_entityValue, processValue_entityValue,
        serializeFields_pretty fs2 mf2 m p q]

/-- Array-element serialization does not depend on the `pretty` flag. -/
theorem processItems_pretty : ∀ (l : ValueList) (mf : List String) (key : String)
    (m p q : Bool), processItems mf key p m l = processItems mf key q m l
  | .nil, _, _, _, _, _ => rfl
  | .cons v rest, mf, key, m, p, q => by
      simp only [processItems]
      rw [processValue_pretty v mf key m p q, processItems_pretty rest mf key m p q]

/-- Plain-object serialization does not depend on the `pretty` flag. -/
theorem processSub_pretty : ∀ (l : VFields) (mf : List String) (m2 p q : Bool),
    processSub mf p m2 l = processSub mf q m2 l
  | .nil, _, _, _, _ => rfl
  | .cons k v rest, mf, m2, p, q => by
      simp only [processSub]
      rw [processValue_pretty v mf k m2 p q, processSub_pretty rest mf m2 p q]

/-- The serialized field tree of an entity does not depend on the `pretty`
flag. -/
theorem serializeFields_pretty : ∀ (fs : VFields) (mf : List String) (m p q : Bool),
    serializeFields mf fs p m = serializeFields mf fs q m
  | .nil, _, _, _, _ => rfl
  | .cons k v rest, mf, m, p, q => by
      simp only [serializeFields]
      rw [processValue_pretty v mf k m p q, serializeFields_pretty rest mf m p q]
end

/-! ### Keys, assignment and entity-freeness -/

/-- The serialized (public) keys of an instance's fields: the keys not
starting with `'_'`, in property order. -/
def publicKeys (fs : VFields) : List String :=
  (VFields.keys fs).filter (fun k => !underscoreFirst k)

theorem publicKeys_no_underscore {k : String} {fs : VFields}
    (h : k ∈ publicKeys fs) : underscoreFirst k = false := by
  have := (List.mem_filter.mp h).2
  simpa using this

theorem publicKeys_sub_keys {k : String} {fs : VFields}
    (h : k ∈ publicKeys fs) : k ∈ VFields.keys fs :=
  (List.mem_filter.mp h).1

/-- The keys of the serialized field tree are exactly the instance's public
keys, whatever the masking or pretty flags. -/
theorem keys_serializeFields : ∀ (fs : VFields) (mf : List String) (p m : Bool),
    JFields.keys (serializeFields mf fs p m) = publicKeys fs
  | .nil, _, _, _ => rfl
  | .cons k v rest, mf, p, m => by
      cases h : underscoreFirst k <;>
        simp [serializeFields, h, publicKeys, JFields.keys, VFields.keys,
          keys_serializeFields rest mf p m]

mutual
/-- Does a value contain no nested entity instance? -/
def entityFreeV : Value → Bool
  | .vnull => true
  | .vbool _ => true
  | .vnum _ => true
  | .vstr _ => true
  | .varr items => entityFreeL items
  | .vobj fields => entityFreeF fields
  | .ventity _ _ => false

/-- Entity-freeness of array elements. -/
def entityFreeL : ValueList → Bool
  | .nil => true
  | .cons v rest => entityFreeV v && entityFreeL rest

/-- Entity-freeness of object members. -/
def entityFreeF : VFields → Bool
  | .nil => true
  | .cons _ v rest => entityFreeV v && entityFreeF rest
end

mutual
/-- A parsed JSON value embeds to an entity-free value. -/
theorem entityFreeV_jsonToValue : ∀ j : Json, entityFreeV (jsonToValue j) = true
  | .null => rfl
  | .bool _ => rfl
  | .num _ => rfl
  | .str _ => rfl
  | .arr items => by
      simp only [jsonToValue, entityFreeV]
      exact entityFreeL_jsonToValue items
  | .obj fields => by
      simp only [jsonToValue, entityFreeV]
      exact entityFreeF_jsonToValue fields

/-- Parsed array elements embed entity-free. -/
theorem entityFreeL_jsonToValue : ∀ l : JsonList, entityFreeL (jsonToValueL l) = true
  | .nil => rfl
  | .cons v rest => by
      simp only [jsonToValueL, entityFreeL]
      rw [entityFreeV_jsonToValue v, entityFreeL_jsonToValue rest]
      rfl

/-- Parsed object members embed entity-free. -/
theorem entityFreeF_jsonToValue : ∀ l : JFields, entityFreeF (jsonToValueF l) = true
  | .nil => rfl
  | .cons k v rest => by
      simp only [jsonToValueF, entityFreeF]
      rw [entityFreeV_jsonToValue v, entityFreeF_jsonToValue rest]
      rfl
end

/-- Are all public (serialized) field values of an instance entity-free? -/
def publicEntityFree : VFields → Bool
  | .nil => true
  | .cons k v rest => (underscoreFirst k || entityFreeV v) && publicEntityFree rest

/-- `Object.assign` writes that miss an existing leading property commute
with it. -/
theorem assignAll_cons_skip : ∀ (dfs : JFields) (k : String) (v : Value)
    (target : VFields), (∀ k2 ∈ JFields.keys dfs, k2 ≠ k) →
    assignAll (.cons k v target) dfs = .cons k v (assignAll target dfs)
  | .nil, _, _, _, _ => rfl
  | .cons k2 v2 rest, k, v, target, h => by
      have hk2 : k2 ≠ k := h k2 (by simp [JFields.keys])
      have hbeq : (k == k2) = false := by
        simp [beq_eq_false_iff_ne]
        exact fun he => hk2 he.symm
      simp only [assignAll, assignOne, hbeq, Bool.false_eq_true, if_false]
      exact assignAll_cons_skip rest k v (assignOne target k2 (jsonToValue v2))
        (fun k3 hk3 => h k3 (by simp [JFields.keys]; right; exact hk3))

theorem jfields_of_keys_nil {dfs : JFields} (h : JFields.keys dfs = []) : dfs = .nil := by
  cases dfs with
  | nil => rfl
  | cons k v rest => simp [JFields.keys] at h

theorem jfields_of_keys_cons {dfs : JFields} {k : String} {l : List String}
    (h : JFields.keys dfs = k :: l) :
    ∃ jv dfs2, dfs = .cons k jv dfs2 ∧ JFields.keys dfs2 = l := by
  cases dfs with
  | nil => simp [JFields.keys] at h
  | cons k2 v rest =>
      simp only [JFields.keys, List.cons.injEq] at h
      exact ⟨v, rest, by rw [h.1], h.2⟩

/-- The heart of the round trip: `Object.assign`-ing the parsed serialized
data onto a default instance with the same public key layout produces an
instance that (a) re-serializes (masking off) to exactly the parsed data and
(b) holds only parsed (entity-free) values in its public fields. -/
theorem assignAll_spec : ∀ (defaults : VFields) (dfs : JFields) (mf : List String)
    (p : Bool), (VFields.keys defaults).Nodup →
    JFields.keys dfs = publicKeys defaults →
    serializeFields mf (assignAll defaults dfs) p false = dfs ∧
    publicEntityFree (assignAll defaults dfs) = true
  | .nil, dfs, mf, p, _, hkeys => by
      have : dfs = .nil := jfields_of_keys_nil (by simpa [publicKeys, VFields.keys] using hkeys)
      subst this
      exact ⟨rfl, rfl⟩
  | .cons k v rest, dfs, mf, p, hnodup, hkeys => by
      have hnd := List.nodup_cons.mp (by simpa [VFields.keys] using hnodup)
      cases hu : underscoreFirst k with
      | true =>
          have hkeys2 : JFields.keys dfs = publicKeys rest := by
            simpa [publicKeys, VFields.keys, hu] using hkeys
          have hne : ∀ k2 ∈ JFields.keys dfs, k2 ≠ k := by
            intro k2 hk2 he
            have : underscoreFirst k2 = false :=
              publicKeys_no_underscore (hkeys2 ▸ hk2)
            rw [he, hu] at this
            cases this
          rw [assignAll_cons_skip dfs k v rest hne]
          have ih := assignAll_spec rest dfs mf p hnd.2 hkeys2
          constructor
          · simpa [serializeFields, hu] using ih.1
          · simpa [publicEntityFree, hu] using ih.2
      | false =>
          have hkeys1 : JFields.keys dfs = k :: publicKeys rest := by
            simpa [publicKeys, VFields.keys, hu] using hkeys
          obtain ⟨jv, dfs2, hdfs, hkeys2⟩ := jfields_of_keys_cons hkeys1
          subst hdfs
          have hne : ∀ k2 ∈ JFields.keys dfs2, k2 ≠ k := by
            intro k2 hk2 he
            apply hnd.1
            subst he
            exact publicKeys_sub_keys (hkeys2 ▸ hk2)
          have hstep : assignAll (.cons k v rest) (.cons k jv dfs2) =
              .cons k (jsonToValue jv) (assignAll rest dfs2) := by
            have hb : (k == k) = true := beq_self_eq_true k
            simp only [assignAll, assignOne, hb, if_true]
            exact assignAll_cons_skip dfs2 k (jsonToValue jv) rest hne
          rw [hstep]
          have ih := assignAll_spec rest dfs2 mf p hnd.2 hkeys2
          constructor
          · simp only [serializeFields, hu, Bool.false_eq_true, if_false]
            rw [processValue_jsonToValue, ih.1]
          · simp only [publicEntityFree, hu, Bool.false_or]
            rw [entityFreeV_jsonToValue, ih.2]
            rfl

/-- Deserializing an instance's own compact unmasked serialization succeeds
whenever that serialization validates against the derived schema, and
produces the default instance overwritten by the parsed data. -/
theorem fromJSON_toJSON_ok (e : EntityInst)
    (hvalid : validateSchema (getJsonSchema e.etype) ""
      (.obj (serializeFields e.etype.maskableFields e.fields false false)) = []) :
    fromJSON e.etype (toJSON e false false) =
      .ok ⟨e.etype, assignAll e.etype.defaultFields
        (serializeFields e.etype.maskableFields e.fields false false)⟩ := by
  have hparse : safeJsonParse (toJSON e false false) =
      some (.obj (serializeFields e.etype.maskableFields e.fields false false)) :=
    safeJsonParse_stringify _ false
  simp only [fromJSON, hparse, jsFalsy, Bool.false_eq_true, if_false,
    ajvReportedErrors, ajvAllErrorsDefault, hvalid, List.take_nil,
    List.isEmpty_nil, if_true]

/-! ### Claim C1: serialization round trip -/

/-- C1.  For every entity whose public field layout matches its class's
default instance (what `new (this)()` + the declared constructor produces)
and whose serialized field values conform to the derived schema, one full
round trip — `toJSON(false, false)`, `fromJSON` on the same concrete type,
`toJSON(false, false)` again — yields a token stream equal to the original
output, field for field, nested-entity fields included. -/
theorem roundTrip_toJSON (e : EntityInst)
    (hkeys : publicKeys e.fields = publicKeys e.etype.defaultFields)
    (hnodup : (VFields.keys e.etype.defaultFields).Nodup)
    (hvalid : validateSchema (getJsonSchema e.etype) ""
      (.obj (serializeFields e.etype.maskableFields e.fields false false)) = []) :
    ∃ e2 : EntityInst, fromJSON e.etype (toJSON e false false) = .ok e2 ∧
      toJSON e2 false false = toJSON e false false := by
  refine ⟨_, fromJSON_toJSON_ok e hvalid, ?_⟩
  have hspec := assignAll_spec e.etype.defaultFields
    (serializeFields e.etype.maskableFields e.fields false false)
    e.etype.maskableFields false hnodup
    ((keys_serializeFields e.fields e.etype.maskableFields false false).trans hkeys)
  simp only [toJSON]
  rw [hspec.1]

/-- A hint `{ type: t }` with no optional members. -/
def primHint (t : String) : SchemaHint :=
  ⟨t, none, none, none, none, none, none, none, none⟩

/-- A hint `{ type: 'array', items: it }`. -/
def arrayHintOf (it : HintItems) : SchemaHint :=
  ⟨"array", none, none, none, none, none, none, some it, none⟩

/-- A hint `{ type: 'object', schema: s }`. -/
def objectHintOf (s : JsonSchema) : SchemaHint :=
  ⟨"object", none, none, none, none, none, none, none, some s⟩

/-- A concrete nested entity class (`SubModel`-like: a required, maskable
string-array field). -/
def subTypeC1 : EntityType :=
  ⟨["hobbies"], ["hobbies"],
   [("hobbies", arrayHintOf (.plain "string" none none none none none none))],
   .cons "hobbies" (.varr .nil) .nil⟩

/-- A concrete container class (`RootModel`-like) whose `sub` field carries
the nested class's precompiled schema. -/
def rootTypeC1 : EntityType :=
  ⟨["description"], ["description"],
   [("id", primHint "number"),
    ("description", primHint "string"),
    ("sub", objectHintOf (getJsonSchema subTypeC1))],
   .cons "id" (.vnum 0) (.cons "description" .vnull (.cons "sub" .vnull .nil))⟩

/-- A live container instance holding a nested entity instance. -/
def rootInstC1 : EntityInst :=
  ⟨rootTypeC1,
   .cons "id" (.vnum 1)
     (.cons "description" (.vstr "test")
       (.cons "sub" (.ventity ["hobbies"]
         (.cons "hobbies" (.varr (.cons (.vstr "reading") .nil)) .nil)) .nil))⟩

theorem roundTrip_toJSON_witness :
    ∃ e2 : EntityInst, fromJSON rootInstC1.etype (toJSON rootInstC1 false false) = .ok e2 ∧
      toJSON e2 false false = toJSON rootInstC1 false false :=
  roundTrip_toJSON rootInstC1 (by decide) (by decide) (by decide)

/-! ### Observers used by the claims -/

/-- Does the serialized text contain a newline-indent? -/
def hasNl (ts : List JTok) : Bool :=
  ts.any isNl

/-- Is a value a JavaScript primitive of this model (`null`, boolean, number
or string)? -/
def isPrimV : Value → Bool
  | .vnull => true
  | .vbool _ => true
  | .vnum _ => true
  | .vstr _ => true
  | _ => false

/-- Is a parsed JSON value a primitive? -/
def isPrimJson : Json → Bool
  | .null => true
  | .bool _ => true
  | .num _ => true
  | .str _ => true
  | _ => false

/-- Every element replaced by the mask string of its own string form (the
maskable-array arm of `processValue`). -/
def maskItemsBy : ValueList → JsonList
  | .nil => .nil
  | .cons v rest => .cons (.str (maskOf (jsStringOf v))) (maskItemsBy rest)

/-- First field named `k` of an instance, if any. -/
def VFields.get : VFields → String → Option Value
  | .nil, _ => none
  | .cons k v rest, k2 => if k == k2 then some v else VFields.get rest k2

/-- Does the instance's field `k` hold a nested entity instance? -/
def fieldIsEntity (fs : VFields) (k : String) : Bool :=
  match VFields.get fs k with
  | some (.ventity _ _) => true
  | _ => false

/-- Does field `k` of the result of `clone` hold a nested entity instance? -/
def cloneFieldIsEntity (e : EntityInst) (k : String) : Bool :=
  match clone e with
  | .ok e2 => fieldIsEntity e2.fields k
  | .error _ => false

/-- The top-level `type` keyword of a derived schema. -/
def schemaTypeName : JsonSchema → String
  | .prim t _ _ _ _ _ _ => t
  | .arr _ => "array"
  | .obj _ _ _ => "object"

/-- The `required` list of an object schema. -/
def schemaRequired : JsonSchema → Option (List String)
  | .obj _ req _ => some req
  | _ => none

/-- The `additionalProperties` keyword of an object schema. -/
def schemaAdditional : JsonSchema → Option Bool
  | .obj _ _ addl => some addl
  | _ => none

/-! ### Claim C3: schema fidelity -/

/-- C3.  Whatever the schema hints contain, `getJsonSchema` yields an object
schema whose `required` is exactly the declared `_requiredFields` and whose
`additionalProperties` is `false`. -/
theorem getJsonSchema_fidelity : ∀ et : EntityType,
    schemaTypeName (getJsonSchema et) = "object" ∧
    schemaRequired (getJsonSchema et) = some et.requiredFields ∧
    schemaAdditional (getJsonSchema et) = some false :=
  fun _ => ⟨rfl, rfl, rfl⟩

/-! ### Claim C9: the serializer never throws -/

/-- C9.  `toJSON` is total: for every entity and both flags it returns the
plain encoding of the processed field tree — the defensive catch is never
taken for (acyclic) entities — and if the encoding step itself did throw,
the catch would return the empty output rather than propagating. -/
theorem toJSON_total_and_fallback :
    (∀ (e : EntityInst) (p m : Bool), toJSON e p m =
      encJson (.obj (serializeFields e.etype.maskableFields e.fields p m)) p 0) ∧
    catchStringify none = [] :=
  ⟨fun _ _ _ => rfl, rfl⟩

/-! ### Claim C10: falsy parse results are parse failures -/

/-- C10.  For every entity type, the syntactically valid JSON texts `null`,
`false`, `0` and `""` parse successfully yet are rejected by `fromJSON`'s
`!data` gate with the same parse error — carrying the offending input — that
a genuinely malformed text (here a lone `:`) produces, before any schema
work. -/
theorem fromJSON_falsy_parseFailure : ∀ et : EntityType,
    (safeJsonParse [JTok.nullTok] = some .null ∧
      fromJSON et [JTok.nullTok] = .error (.parseFailure [JTok.nullTok])) ∧
    (safeJsonParse [JTok.boolTok false] = some (.bool false) ∧
      fromJSON et [JTok.boolTok false] = .error (.parseFailure [JTok.boolTok false])) ∧
    (safeJsonParse [JTok.numTok 0] = some (.num 0) ∧
      fromJSON et [JTok.numTok 0] = .error (.parseFailure [JTok.numTok 0])) ∧
    (safeJsonParse [JTok.strTok ""] = some (.str "") ∧
      fromJSON et [JTok.strTok ""] = .error (.parseFailure [JTok.strTok ""])) ∧
    (safeJsonParse [JTok.colon] = none ∧
      fromJSON et [JTok.colon] = .error (.parseFailure [JTok.colon])) :=
  fun _ => ⟨⟨rfl, rfl⟩, ⟨rfl, rfl⟩, ⟨rfl, rfl⟩, ⟨rfl, rfl⟩, ⟨rfl, rfl⟩⟩

/-! ### Claim C4: masking length invariant -/

theorem processItems_masked (mf : List String) (key : String) (p : Bool)
    (hkey : mf.contains key = true) :
    ∀ items : ValueList, processItems mf key p true items = maskItemsBy items
  | .nil => rfl
  | .cons v rest => by
      simp only [processItems, hkey, Bool.true_and, if_true, maskItemsBy]
      rw [processItems_masked mf key p hkey rest]

theorem maskOf_length (s : String) : (maskOf s).length = s.length := by
  show (List.replicate s.length '*').length = s.length
  exact List.length_replicate s.length '*'

theorem maskOf_all_stars (s : String) :
    (maskOf s).data.all (fun c => c == '*') = true := by
  show (List.replicate s.length '*').all (fun c => c == '*') = true
  induction s.length with
  | zero => rfl
  | succ n ih => simp [List.replicate_succ, ih]

/-- C4.  For a maskable field, serializing with `maskSensitive = true`
replaces a primitive value — and, independently, every element of a maskable
array field — by a string consisting only of `*` whose length equals the
length of `String(value)`; in particular the number `12345` masks to
`"*****"` and `null` (string form `"null"`) masks to `"****"`. -/
theorem masking_length_invariant (mf : List String) (key : String) (p : Bool)
    (hkey : mf.contains key = true) :
    (∀ v : Value, isPrimV v = true →
      processValue mf key p true v = .str (maskOf (jsStringOf v))) ∧
    (∀ items : ValueList, processItems mf key p true items = maskItemsBy items) ∧
    (∀ s : String, (maskOf s).length = s.length ∧
      (maskOf s).data.all (fun c => c == '*') = true) ∧
    processValue mf key p true (.vnum 12345) = .str "*****" ∧
    processValue mf key p true .vnull = .str "****" := by
  have hmem : key ∈ mf := by simpa using hkey
  refine ⟨?_, processItems_masked mf key p hkey, fun s => ⟨maskOf_length s, maskOf_all_stars s⟩, ?_, ?_⟩
  · intro v hv
    cases v with
    | vnull => simp [processValue, hmem]
    | vbool b => simp [processValue, hmem]
    | vnum n => simp [processValue, hmem]
    | vstr s => simp [processValue, hmem]
    | varr items => exact absurd hv (by simp [isPrimV])
    | vobj fields => exact absurd hv (by simp [isPrimV])
    | ventity mf2 fs2 => exact absurd hv (by simp [isPrimV])
  · simp only [processValue, hkey, Bool.true_and]
    rfl
  · simp only [processValue, hkey, Bool.true_and]
    rfl

theorem masking_length_invariant_witness :
    processValue ["a"] "a" false true (.vnum 12345) = .str "*****" ∧
    processValue ["a"] "a" false true .vnull = .str "****" ∧
    processValue ["a"] "a" false true (.vstr "tokyo") = .str "*****" ∧
    processItems ["a"] "a" false true (.cons (.vstr "tag1") (.cons (.vstr "tag2") .nil)) =
      .cons (.str "****") (.cons (.str "****") .nil) ∧
    (maskOf "12345").length = 5 := by
  have h := masking_length_invariant ["a"] "a" false (by decide)
  refine ⟨h.2.2.2.1, h.2.2.2.2, ?_, ?_, ?_⟩
  · rw [h.1 (.vstr "tokyo") rfl]
    rfl
  · rw [h.2.1]
    rfl
  · rw [(h.2.2.1 "12345").1]
    rfl

/-! ### Claim C5: masking containment -/

/-- C5.  With masking requested, a plain nested object held by a field that
is not in the owner's maskable set is emitted completely unmodified, even if
its own sub-field names are in that set; and a primitive sub-field of a
plain nested object is masked exactly when both the containing field and the
sub-field name are in the owner's maskable-field set. -/
theorem masking_containment (mf : List String) (key sk : String) (p : Bool) :
    (∀ kvs : JFields, mf.contains key = false →
      processValue mf key p true (.vobj (jsonToValueF kvs)) = .obj kvs) ∧
    (∀ (pj : Json) (rest : VFields), isPrimJson pj = true →
      processValue mf key p true (.vobj (.cons sk (jsonToValue pj) rest)) =
        .obj (.cons sk
          (if mf.contains key && mf.contains sk
           then Json.str (maskOf (jsStringOf (jsonToValue pj)))
           else pj)
          (processSub mf p (mf.contains key) rest))) := by
  constructor
  · intro kvs hkey
    simp only [processValue, hkey, Bool.true_and]
    rw [processSub_jsonToValue kvs mf p]
  · intro pj rest hpj
    simp only [processValue, processSub, Bool.true_and]
    cases pj with
    | null => simp only [jsonToValue, processValue, Bool.true_and]
    | bool b => simp only [jsonToValue, processValue, Bool.true_and]
    | num n => simp only [jsonToValue, processValue, Bool.true_and]
    | str s => simp only [jsonToValue, processValue, Bool.true_and]
    | arr items => exact absurd hpj (by simp [isPrimJson])
    | obj fields => exact absurd hpj (by simp [isPrimJson])

theorem masking_containment_witness :
    processValue ["secret", "inner"] "profile" false true
      (.vobj (.cons "secret" (.vstr "abc") .nil)) =
      .obj (.cons "secret" (.str "abc") .nil) ∧
    processValue ["secret", "inner"] "inner" false true
      (.vobj (.cons "secret" (.vstr "abc") .nil)) =
      .obj (.cons "secret" (.str "***") .nil) ∧
    processValue ["secret", "inner"] "inner" false true
      (.vobj (.cons "other" (.vstr "abc") .nil)) =
      .obj (.cons "other" (.str "abc") .nil) := by
  have h1 := (masking_containment ["secret", "inner"] "profile" "secret" false).1
    (.cons "secret" (.str "abc") .nil) (by decide)
  have h2 := (masking_containment ["secret", "inner"] "inner" "secret" false).2
    (.str "abc") .nil rfl
  have h3 := (masking_containment ["secret", "inner"] "inner" "other" false).2
    (.str "abc") .nil rfl
  refine ⟨?_, ?_, ?_⟩
  · exact h1
  · rw [show (Value.vstr "abc") = jsonToValue (.str "abc") from rfl, h2]
    rfl
  · rw [show (Value.vstr "abc") = jsonToValue (.str "abc") from rfl, h3]
    rfl

/-! ### Claim C6: nested entities inherit the mask flag -/

/-- C6.  A field holding a nested entity is serialized by recursing into the
nested entity's own serialization with the same `maskSensitive` flag — the
result does not depend on the containing field's name or on the container's
maskable set — so the nested entity's own maskable primitive fields are
still masked even when the containing field is not maskable. -/
theorem nested_entity_masking :
    (∀ (mf : List String) (key : String) (p m : Bool) (mf2 : List String)
      (fs2 : VFields), processValue mf key p m (.ventity mf2 fs2) =
        .obj (serializeFields mf2 fs2 p m)) ∧
    (∀ (mf : List String) (key : String) (p : Bool) (mf2 : List String)
      (sk : String) (sv : Value) (rest : VFields),
      underscoreFirst sk = false → mf2.contains sk = true → isPrimV sv = true →
      processValue mf key p true (.ventity mf2 (.cons sk sv rest)) =
        .obj (.cons sk (.str (maskOf (jsStringOf sv)))
          (serializeFields mf2 rest p true))) := by
  constructor
  · exact fun mf key p m mf2 fs2 => processValue_entityValue mf key p m mf2 fs2
  · intro mf key p mf2 sk sv rest hsk hcs hprim
    rw [processValue_entityValue]
    simp only [serializeFields, hsk, Bool.false_eq_true, if_false]
    cases sv with
    | vnull => simp only [processValue, hcs, Bool.true_and, if_true]
    | vbool b => simp only [processValue, hcs, Bool.true_and, if_true]
    | vnum n => simp only [processValue, hcs, Bool.true_and, if_true]
    | vstr s => simp only [processValue, hcs, Bool.true_and, if_true]
    | varr items => exact absurd hprim (by simp [isPrimV])
    | vobj fields => exact absurd hprim (by simp [isPrimV])
    | ventity mf3 fs3 => exact absurd hprim (by simp [isPrimV])

theorem nested_entity_masking_witness :
    processValue [] "sub" false true
      (.ventity ["hobbies"] (.cons "hobbies" (.vstr "ab") .nil)) =
      .obj (.cons "hobbies" (.str "**") .nil) := by
  have h := nested_entity_masking.2 [] "sub" false ["hobbies"] "hobbies"
    (.vstr "ab") .nil rfl (by decide) rfl
  rw [h]
  rfl

/-! ### Claim C2: validation-failure reporting -/

/-- C2 (amended).  On schema-invalid data, `fromJSON` throws one
`ValidationError` whose message comma-joins `instancePath message` over the
failures the validator reported — but the source builds its validator as
`new Ajv()`, whose default is `allErrors: false`, so only the first failure
is reported and the message references a single violation. -/
theorem validationFailure_firstError (et : EntityType) (ts : List JTok) (d : Json)
    (hp : safeJsonParse ts = some d) (hf : jsFalsy d = false)
    (hv : validateSchema (getJsonSchema et) "" d ≠ []) :
    fromJSON et ts = .error (.validationFailure (String.intercalate ", "
      (((validateSchema (getJsonSchema et) "" d).take 1).map
        (fun er => er.instancePath ++ " " ++ er.message)))) := by
  obtain ⟨a, l2, hl⟩ := List.exists_cons_of_ne_nil hv
  simp only [fromJSON, hp, hf, Bool.false_eq_true, if_false, ajvReportedErrors,
    ajvAllErrorsDefault, hl, List.take_succ_cons, List.take_nil,
    List.isEmpty_cons, List.map_cons, List.map_nil]

/-- The class used in the counterexample: one required string property
`name`, no maskable fields. -/
def cexTypeC2 : EntityType :=
  ⟨[], ["name"], [("name", primHint "string")], .cons "name" .vnull .nil⟩

/-- The counterexample input text: `{"extra":1}` — missing the required
`name` and carrying the undeclared `extra`. -/
def cexToksC2 : List JTok :=
  [.lbrace, .strTok "extra", .colon, .numTok 1, .rbrace]

/-- C2 (counterexample).  On data violating the schema in two ways — a
missing required property and an additional property — the full violation
list indeed has both entries, yet the thrown message carries only the first
(the missing-required one) and does not reference the additional-property
violation at all. -/
theorem validation_aggregation_counterexample :
    validateSchema (getJsonSchema cexTypeC2) "" (.obj (.cons "extra" (.num 1) .nil)) =
      [⟨"", "must have required property name"⟩,
       ⟨"", "must NOT have additional properties"⟩] ∧
    safeJsonParse cexToksC2 = some (.obj (.cons "extra" (.num 1) .nil)) ∧
    fromJSON cexTypeC2 cexToksC2 =
      .error (.validationFailure " must have required property name") ∧
    strContains " must have required property name" "additional" = false := by
  exact ⟨rfl, rfl, rfl, rfl⟩

theorem validationFailure_firstError_witness :
    fromJSON cexTypeC2 cexToksC2 = .error (.validationFailure (String.intercalate ", "
      (((validateSchema (getJsonSchema cexTypeC2) "" (.obj (.cons "extra" (.num 1) .nil))).take 1).map
        (fun er => er.instancePath ++ " " ++ er.message)))) :=
  validationFailure_firstError cexTypeC2 cexToksC2 (.obj (.cons "extra" (.num 1) .nil))
    (by decide) (by decide) (by decide)

/-! ### Claim C7: clone -/

/-- C7 (counterexample).  Cloning a container whose `sub` field holds a
nested entity instance succeeds and reproduces the values, but the clone's
`sub` field holds a plain parsed object, not a new instance of the nested
entity type: `fromJSON` populates the fresh instance with
`Object.assign(instance, data)`, which assigns parsed values shallowly and
reconstructs no nested entities. -/
theorem clone_reconstruction_counterexample :
    clone rootInstC1 = .ok ⟨rootTypeC1,
      .cons "id" (.vnum 1)
        (.cons "description" (.vstr "test")
          (.cons "sub"
            (.vobj (.cons "hobbies" (.varr (.cons (.vstr "reading") .nil)) .nil))
            .nil))⟩ ∧
    fieldIsEntity rootInstC1.fields "sub" = true ∧
    (clone rootInstC1).isOk = true ∧
    cloneFieldIsEntity rootInstC1 "sub" = false :=
  ⟨rfl, rfl, rfl, rfl⟩

/-- C7 (amended).  `clone()` serializes the receiver with `pretty = false`,
`maskSensitive = false` and deserializes the text on the same concrete type;
for an instance with its class's public field layout and schema-conformant
serialized values this succeeds, the copy re-serializes to exactly the
original's serialization (a structurally independent value-level copy), and
every public field of the copy holds a parsed, entity-free value — nested
entities are reconstructed as plain objects, not as new instances of their
entity types. -/
theorem clone_deep_copy (e : EntityInst)
    (hkeys : publicKeys e.fields = publicKeys e.etype.defaultFields)
    (hnodup : (VFields.keys e.etype.defaultFields).Nodup)
    (hvalid : validateSchema (getJsonSchema e.etype) ""
      (.obj (serializeFields e.etype.maskableFields e.fields false false)) = []) :
    ∃ e2 : EntityInst, clone e = .ok e2 ∧ e2.etype = e.etype ∧
      toJSON e2 false false = toJSON e false false ∧
      publicEntityFree e2.fields = true := by
  have hspec := assignAll_spec e.etype.defaultFields
    (serializeFields e.etype.maskableFields e.fields false false)
    e.etype.maskableFields false hnodup
    ((keys_serializeFields e.fields e.etype.maskableFields false false).trans hkeys)
  refine ⟨_, fromJSON_toJSON_ok e hvalid, rfl, ?_, hspec.2⟩
  simp only [toJSON]
  rw [hspec.1]

theorem clone_deep_copy_witness :
    ∃ e2 : EntityInst, clone rootInstC1 = .ok e2 ∧ e2.etype = rootInstC1.etype ∧
      toJSON e2 false false = toJSON rootInstC1 false false ∧
      publicEntityFree e2.fields = true :=
  clone_deep_copy rootInstC1 (by decide) (by decide) (by decide)

/-! ### Claim C8: pretty vs compact -/

mutual
/-- Compact encoding emits no newline-indent tokens. -/
theorem noNl_encJson : ∀ (j : Json) (d : Nat), (encJson j false d).any isNl = false
  | .null, _ => rfl
  | .bool _, _ => rfl
  | .num _, _ => rfl
  | .str _, _ => rfl
  | .arr .nil, _ => rfl
  | .arr (.cons v rest), d => by
      have h := noNl_encItems (.cons v rest) (d + 1)
      simp [encJson, List.any_append, isNl] at h ⊢
      exact h
  | .obj .nil, _ => rfl
  | .obj (.cons k v rest), d => by
      have h := noNl_encFields (.cons k v rest) (d + 1)
      simp [encJson, List.any_append, isNl] at h ⊢
      exact h

/-- Compact member encoding of arrays emits no newline-indent tokens. -/
theorem noNl_encItems : ∀ (l : JsonList) (d : Nat), (encItems l false d).any isNl = false
  | .nil, _ => rfl
  | .cons v rest, d => by
      have h1 := noNl_encJson v d
      cases rest with
      | nil =>
          have hx : encItems (.cons v .nil) false d = encJson v false d := by
            simp [encItems]
          rw [hx, h1]
      | cons w wrest =>
          have h2 := noNl_encItems (.cons w wrest) d
          have hx : encItems (.cons v (.cons w wrest)) false d =
              encJson v false d ++ (JTok.comma :: encItems (.cons w wrest) false d) := by
            simp [encItems]
          rw [hx]
          simp only [List.any_append, List.any_cons, h1, h2, isNl, Bool.false_or,
            Bool.or_false]

/-- Compact member encoding of objects emits no newline-indent tokens. -/
theorem noNl_encFields : ∀ (l : JFields) (d : Nat), (encFields l false d).any isNl = false
  | .nil, _ => rfl
  | .cons k v rest, d => by
      have h1 := noNl_encJson v d
      cases rest with
      | nil =>
          have hx : encFields (.cons k v .nil) false d =
              JTok.strTok k :: JTok.colon :: encJson v false d := by
            simp [encFields]
          rw [hx]
          simp only [List.any_cons, h1, isNl, Bool.false_or, Bool.or_false]
      | cons k2 w wrest =>
          have h2 := noNl_encFields (.cons k2 w wrest) d
          have hx : encFields (.cons k v (.cons k2 w wrest)) false d =
              JTok.strTok k :: JTok.colon :: (encJson v false d ++
                (JTok.comma :: encFields (.cons k2 w wrest) false d)) := by
            simp [encFields]
          rw [hx]
          simp only [List.any_cons, List.any_append, h1, h2, isNl, Bool.false_or,
            Bool.or_false]
end

theorem jfields_ne_nil_of_keys {dfs : JFields} (h : JFields.keys dfs ≠ []) :
    ∃ k v rest, dfs = .cons k v rest := by
  cases dfs with
  | nil => exact absurd rfl h
  | cons k v rest => exact ⟨k, v, rest, rfl⟩

/-- The empty-field entity: a subclass with no public fields (only the
class's underscore-prefixed metadata). -/
def emptyInstC8 : EntityInst :=
  ⟨⟨[], [], [], .nil⟩, .nil⟩

/-- C8 (counterexample).  The claim quantifies over every entity, but an
entity with no serialized fields pretty-prints as `{}`: the pretty output of
`toJSON(true, _)` contains no newline and no indentation, exactly as
`JSON.stringify({}, null, 2)` prints `"{}"`. -/
theorem pretty_newline_counterexample :
    toJSON emptyInstC8 true false = [.lbrace, .rbrace] ∧
    hasNl (toJSON emptyInstC8 true false) = false :=
  ⟨rfl, rfl⟩

/-- C8 (amended).  For every entity with at least one serialized (public)
field, the pretty output contains a newline-indent token — in particular the
two-space one — the compact output contains none, and both outputs parse to
the same tree (which is the entity's serialized field object). -/
theorem pretty_compact_amended (e : EntityInst) (m : Bool)
    (hne : publicKeys e.fields ≠ []) :
    hasNl (toJSON e true m) = true ∧
    JTok.nl 2 ∈ toJSON e true m ∧
    hasNl (toJSON e false m) = false ∧
    parseJson (toJSON e true m) = parseJson (toJSON e false m) ∧
    parseJson (toJSON e false m) =
      some (.obj (serializeFields e.etype.maskableFields e.fields false m)) := by
  obtain ⟨k, v, rest, hcons⟩ :=
    @jfields_ne_nil_of_keys (serializeFields e.etype.maskableFields e.fields true m)
      (by rw [keys_serializeFields]; exact hne)
  have htoks : toJSON e true m =
      encJson (.obj (serializeFields e.etype.maskableFields e.fields true m)) true 0 := rfl
  have hptree : serializeFields e.etype.maskableFields e.fields true m =
      serializeFields e.etype.maskableFields e.fields false m :=
    serializeFields_pretty e.fields e.etype.maskableFields m true false
  refine ⟨?_, ?_, ?_, ?_, ?_⟩
  · rw [htoks, hcons]
    simp [hasNl, encJson, encFields, List.any_append, isNl]
  · rw [htoks, hcons]
    simp [encJson, encFields, List.mem_append]
  · exact noNl_encJson (.obj (serializeFields e.etype.maskableFields e.fields false m)) 0
  · show parseJson (encJson (.obj (serializeFields e.etype.maskableFields e.fields true m)) true 0) =
      parseJson (encJson (.obj (serializeFields e.etype.maskableFields e.fields false m)) false 0)
    rw [parseJson_encJson, parseJson_encJson, hptree]
  · exact parseJson_encJson (.obj (serializeFields e.etype.maskableFields e.fields false m)) false

theorem pretty_compact_amended_witness :
    hasNl (toJSON rootInstC1 true false) = true ∧
    JTok.nl 2 ∈ toJSON rootInstC1 true false ∧
    hasNl (toJSON rootInstC1 false false) = false ∧
    parseJson (toJSON rootInstC1 true false) = parseJson (toJSON rootInstC1 false false) ∧
    parseJson (toJSON rootInstC1 false false) =
      some (.obj (serializeFields rootInstC1.etype.maskableFields rootInstC1.fields false false)) :=
  pretty_compact_amended rootInstC1 false (by decide)
